import Mathlib

/-!
Shallow embedding of the `LHash` value type of `src/pow/lib.rs` from the
Xenomorph-miner repository, together with proofs of the specified properties.

Modelling conventions:
* `u8` is `Fin 256` (`Byte`); `[u8; 32]` is a `List Byte` with a length proof.
* `u64` values are `Nat`, bounded by `2 ^ 64` in the theorems where the bound
  matters; little-endian reassembly of eight bytes never overflows 64 bits.
* A panic is `Option.none`; a recoverable `Result` is `Except`.
* `faster_hex::hex_encode` and `faster_hex::hex_decode` are an external crate
  whose source is not part of this repository, so they are modelled from the
  specification text (see `hex_encode_bytes` and `hex_decode32`).
-/

def HASH_SIZE : Nat := 32

abbrev Byte := Fin 256

/-- Embedding of `pub struct LHash(pub(crate) [u8; HASH_SIZE])`. -/
structure LHash where
  bytes : List Byte
  len_eq : bytes.length = HASH_SIZE

theorem LHash.ext_bytes {x y : LHash} (h : x.bytes = y.bytes) : x = y := by
  cases x; cases y; simp_all

instance : DecidableEq LHash := fun x y =>
  if h : x.bytes = y.bytes then .isTrue (LHash.ext_bytes h)
  else .isFalse fun hc => h (congrArg LHash.bytes hc)

/-- Embedding of `LHash::from_bytes`: wraps an exact-size byte array. -/
def LHash.from_bytes (bytes : List Byte) (h : bytes.length = HASH_SIZE) : LHash :=
  ⟨bytes, h⟩

/-- Embedding of `LHash::as_bytes`: returns the raw bytes. -/
def LHash.as_bytes (self : LHash) : List Byte :=
  self.bytes

/-- Embedding of `LHash::from_slice`; `none` models the panic of the
`expect` call when the slice length is not `HASH_SIZE`. -/
def LHash.from_slice (bytes : List Byte) : Option LHash :=
  if h : bytes.length = HASH_SIZE then some ⟨bytes, h⟩ else none

/-- Embedding of `LHash::try_from_slice`; the error carries no payload,
like `TryFromSliceError`. -/
def LHash.try_from_slice (bytes : List Byte) : Except Unit LHash :=
  if h : bytes.length = HASH_SIZE then .ok ⟨bytes, h⟩ else .error ()

/-- Embedding of `u64::from_le_bytes` on a chunk: little-endian value of a
byte list, least significant byte first. -/
def le_word (chunk : List Byte) : Nat :=
  chunk.foldr (fun b acc => b.val + 256 * acc) 0

/-- Embedding of `chunks_exact(8)`: the consecutive full 8-byte chunks of a
list; a shorter remainder is dropped. -/
def chunks8 : List α → List (List α)
  | a0 :: a1 :: a2 :: a3 :: a4 :: a5 :: a6 :: a7 :: rest =>
    [a0, a1, a2, a3, a4, a5, a6, a7] :: chunks8 rest
  | _ => []

/-- Embedding of `LHash::iter_le_u64`: the four little-endian 64-bit words of
the 32 bytes, in ascending chunk order. -/
def LHash.iter_le_u64 (self : LHash) : List Nat :=
  (chunks8 self.bytes).map le_word

/-- Embedding of `out.iter_mut().zip(words)`: overwrite the front of the first
list with the elements of the second, stopping when either list ends. -/
def overwriteZip : List Nat → List Nat → List Nat
  | _ :: os, w :: ws => w :: overwriteZip os ws
  | os, [] => os
  | [], _ :: _ => []

/-- Embedding of `LHash::to_le_u64`: a `[0u64; 4]` buffer overwritten with the
words produced by `iter_le_u64`. -/
def LHash.to_le_u64 (self : LHash) : List Nat :=
  overwriteZip [0, 0, 0, 0] self.iter_le_u64

/-- Embedding of `u64::to_le_bytes`: the eight little-endian bytes of a word. -/
def word_to_le_bytes (w : Nat) : List Byte :=
  (List.range 8).map fun i => (⟨w / 256 ^ i % 256, Nat.mod_lt _ (by norm_num)⟩ : Byte)

/-- Embedding of `ret.chunks_exact_mut(8).zip(arr.iter())` followed by
`copy_from_slice`: overwrite each full 8-byte chunk of the buffer with the
little-endian bytes of the matching word, stopping when either side ends. -/
def writeWords : List Byte → List Nat → List Byte
  | bs, [] => bs
  | bs, w :: ws =>
    if bs.length < 8 then bs else word_to_le_bytes w ++ writeWords (bs.drop 8) ws

theorem word_to_le_bytes_length (w : Nat) : (word_to_le_bytes w).length = 8 := by
  simp [word_to_le_bytes]

theorem writeWords_length : ∀ (bs : List Byte) (ws : List Nat),
    (writeWords bs ws).length = bs.length
  | _, [] => rfl
  | bs, w :: ws => by
    rw [writeWords]
    split
    · rfl
    · rename_i h
      simp only [List.length_append, word_to_le_bytes_length,
        writeWords_length (bs.drop 8) ws, List.length_drop]
      omega

/-- Embedding of `LHash::from_le_u64`: a zeroed 32-byte buffer whose four
8-byte chunks are overwritten with the little-endian bytes of the four words. -/
def LHash.from_le_u64 (arr : List Nat) : LHash :=
  ⟨writeWords (List.replicate HASH_SIZE 0) arr, by rw [writeWords_length]; simp⟩

/-- Embedding of `LHash::from_u64_word`: the word goes into the last slot. -/
def LHash.from_u64_word (word : Nat) : LHash :=
  LHash.from_le_u64 [0, 0, 0, word]

/-- Embedding of `impl PartialEq for LHash`: byte-for-byte equality. -/
def LHash.eq (self other : LHash) : Bool :=
  decide (self.bytes = other.bytes)

/-- Embedding of `impl StdHash for LHash`: the sequence of `u64` values fed to
the hasher state, accumulated by the `for_each` over `iter_le_u64`. -/
def LHash.hashUpdates (self : LHash) : List Nat :=
  self.iter_le_u64.foldl (fun acc w => acc ++ [w]) []

/-- Modelled from the spec: the lowercase hexadecimal digit character for a
value below 16, as produced by `faster_hex::hex_encode` (a dependency whose
source is not part of this repository). -/
def hexDigit (n : Nat) : Char :=
  match n with
  | 0 => '0' | 1 => '1' | 2 => '2' | 3 => '3' | 4 => '4' | 5 => '5' | 6 => '6' | 7 => '7'
  | 8 => '8' | 9 => '9' | 10 => 'a' | 11 => 'b' | 12 => 'c' | 13 => 'd' | 14 => 'e' | _ => 'f'

/-- Modelled from the spec: `faster_hex::hex_encode` writes, for byte `i` of
the input, its high nibble at position `2 * i` and its low nibble at position
`2 * i + 1`, as lowercase hexadecimal characters. -/
def hex_encode_bytes : List Byte → List Char
  | [] => []
  | b :: bs => hexDigit (b.val / 16) :: hexDigit (b.val % 16) :: hex_encode_bytes bs

/-- Embedding of `impl Display for LHash`: hex-encode the 32 bytes into a
64-character buffer and view it as a string. -/
def LHash.to_string (self : LHash) : String :=
  String.mk (hex_encode_bytes self.bytes)

/-- Embedding of `impl ToHex for LHash`: delegates to the Display encoding. -/
def LHash.to_hex (self : LHash) : String :=
  self.to_string

/-- Modelled from the spec: the case-insensitive value of a hexadecimal digit
given by its code point, defaulting to 0 on non-hex characters (the default is
never used on inputs that pass the hex-character check). -/
def hexValN (n : Nat) : Nat :=
  if 48 ≤ n ∧ n ≤ 57 then n - 48
  else if 97 ≤ n ∧ n ≤ 102 then n - 87
  else if 65 ≤ n ∧ n ≤ 70 then n - 55
  else 0

/-- Modelled from the spec: the case-insensitive value of a hexadecimal digit
character. -/
def hexValD (c : Char) : Nat :=
  hexValN c.toNat

theorem hexValD_lt (c : Char) : hexValD c < 16 := by
  unfold hexValD hexValN
  split_ifs <;> omega

/-- Decoded byte of a pair of hexadecimal digit characters, high nibble first. -/
def decodePair (hi lo : Char) : Byte :=
  ⟨16 * hexValD hi + hexValD lo, by
    have h1 := hexValD_lt hi
    have h2 := hexValD_lt lo
    omega⟩

/-- Decoded bytes of a character list, consumed two characters at a time. -/
def decodePairs : List Char → List Byte
  | hi :: lo :: rest => decodePair hi lo :: decodePairs rest
  | _ => []

theorem decodePairs_length : ∀ l : List Char, (decodePairs l).length = l.length / 2
  | [] => rfl
  | [_] => by simp [decodePairs]
  | _ :: _ :: rest => by
    simp only [decodePairs, List.length_cons, decodePairs_length rest]
    omega

/-- Lowercase hexadecimal digit characters, the exact output alphabet of the
encoder described by the spec. -/
def isLowerHexDigit (c : Char) : Bool :=
  c == '0' || c == '1' || c == '2' || c == '3' || c == '4' || c == '5' || c == '6' ||
  c == '7' || c == '8' || c == '9' || c == 'a' || c == 'b' || c == 'c' || c == 'd' ||
  c == 'e' || c == 'f'

/-- Hexadecimal digit characters of either case, accepted by the decoder. -/
def isHexDigit (c : Char) : Bool :=
  isLowerHexDigit c || c == 'A' || c == 'B' || c == 'C' || c == 'D' || c == 'E' || c == 'F'

/-- Modelled from the spec: the two error kinds of `faster_hex::Error` that the
spec describes, an invalid-length error carrying the expected length and an
invalid-character error. -/
inductive HexError where
  | InvalidChar : HexError
  | InvalidLength : Nat → HexError
deriving DecidableEq

/-- Modelled from the spec: `faster_hex::hex_decode` into a 32-byte buffer.
Decoding fails with an invalid-length error carrying the expected length 64
unless the input is exactly 64 characters, fails with an invalid-character
error when a character is not a hexadecimal digit, and otherwise decodes
case-insensitively, two characters per byte. -/
def hex_decode32 (src : List Char) : Except HexError { bs : List Byte // bs.length = HASH_SIZE } :=
  if h : src.length = 64 then
    if src.all isHexDigit then
      .ok ⟨decodePairs src, by simp [decodePairs_length, h, HASH_SIZE]⟩
    else .error .InvalidChar
  else .error (.InvalidLength 64)

/-- Embedding of `impl FromStr for LHash`: decode the characters of the input
into a zeroed 32-byte buffer and wrap the result. -/
def LHash.from_str (hash_str : String) : Except HexError LHash :=
  (hex_decode32 hash_str.data).map fun bs => ⟨bs.1, bs.2⟩

/-- Embedding of `impl FromHex for LHash`: delegates to `from_str`. -/
def LHash.from_hex (hex_str : String) : Except HexError LHash :=
  LHash.from_str hex_str

/-- Embedding of `impl From<[u8; HASH_SIZE]> for LHash`: wraps the array. -/
def LHash.from_array (value : List Byte) (h : value.length = HASH_SIZE) : LHash :=
  ⟨value, h⟩

/-- Embedding of `impl TryFrom<&[u8]> for LHash`: delegates to
`try_from_slice`. -/
def LHash.try_from (value : List Byte) : Except Unit LHash :=
  LHash.try_from_slice value

/-- Embedding of `impl From<u64> for LHash`: delegates to `from_u64_word`. -/
def LHash.from_u64 (word : Nat) : LHash :=
  LHash.from_u64_word word

/-- Embedding of `ZERO_HASH`: all 32 bytes zero. -/
def ZERO_HASH : LHash :=
  ⟨List.replicate HASH_SIZE 0, by simp⟩

/-- Embedding of `EMPTY_MUHASH`: the fixed 32-byte accumulator constant. -/
def EMPTY_MUHASH : LHash :=
  LHash.from_bytes
    [0x54, 0x4e, 0xb3, 0x14, 0x2c, 0x0, 0xf, 0xa, 0xd2, 0xc7, 0x6a, 0xc4, 0x1f, 0x42, 0x22, 0xab,
     0xba, 0xba, 0xbe, 0xd8, 0x30, 0xee, 0xaf, 0xee, 0x4b, 0x6d, 0xc5, 0x6b, 0x52, 0xd5, 0xca, 0xc0]
    (by decide)

theorem foldl_append_eq (l acc : List Nat) :
    l.foldl (fun a w => a ++ [w]) acc = acc ++ l := by
  induction l generalizing acc with
  | nil => simp
  | cons w l ih => simp [List.foldl, ih]

theorem hashUpdates_eq_iter (v : LHash) : v.hashUpdates = v.iter_le_u64 := by
  simp [LHash.hashUpdates, foldl_append_eq]

theorem chunks8_cons (l : List α) (h : 8 ≤ l.length) :
    chunks8 l = l.take 8 :: chunks8 (l.drop 8) :=
  match l with
  | _ :: _ :: _ :: _ :: _ :: _ :: _ :: _ :: _ => rfl
  | [] => by simp at h
  | [_] => by simp at h
  | [_, _] => by simp at h
  | [_, _, _] => by simp at h
  | [_, _, _, _] => by simp at h
  | [_, _, _, _, _] => by simp at h
  | [_, _, _, _, _, _] => by simp at h
  | [_, _, _, _, _, _, _] => by simp at h

theorem chunks8_len32 (l : List α) (h : l.length = 32) :
    chunks8 l = [l.take 8, (l.drop 8).take 8, (l.drop 16).take 8, (l.drop 24).take 8] := by
  have d16 : (l.drop 8).drop 8 = l.drop 16 := by rw [List.drop_drop]
  have d24 : (l.drop 16).drop 8 = l.drop 24 := by rw [List.drop_drop]
  have d32 : (l.drop 24).drop 8 = [] := by
    apply List.eq_nil_of_length_eq_zero
    simp [h]
  rw [chunks8_cons l (by omega),
    chunks8_cons (l.drop 8) (by simp [h]),
    d16,
    chunks8_cons (l.drop 16) (by simp [h]),
    d24,
    chunks8_cons (l.drop 24) (by simp [h]),
    d32]
  rfl

theorem le_word_lt_pow : ∀ l : List Byte, le_word l < 256 ^ l.length
  | [] => by simp [le_word]
  | b :: l => by
    have ih := le_word_lt_pow l
    have hb := b.isLt
    have : le_word (b :: l) = b.val + 256 * le_word l := rfl
    rw [this, List.length_cons, pow_succ]
    omega

theorem le_word_lt (l : List Byte) (h : l.length ≤ 8) : le_word l < 2 ^ 64 := by
  have h1 := le_word_lt_pow l
  have h2 : (256 : Nat) ^ l.length ≤ 256 ^ 8 :=
    Nat.pow_le_pow_right (by norm_num) h
  have h3 : (256 : Nat) ^ 8 = 2 ^ 64 := by norm_num
  omega

theorem chunks8_append8 (a rest : List Byte) (ha : a.length = 8) :
    chunks8 (a ++ rest) = a :: chunks8 rest := by
  have h8 : 8 ≤ (a ++ rest).length := by simp [ha]
  rw [chunks8_cons _ h8, ← ha, List.take_left, List.drop_left]

theorem word_to_le_bytes_expand (w : Nat) :
    word_to_le_bytes w =
      [⟨w % 256, Nat.mod_lt _ (by norm_num)⟩,
       ⟨w / 256 % 256, Nat.mod_lt _ (by norm_num)⟩,
       ⟨w / 65536 % 256, Nat.mod_lt _ (by norm_num)⟩,
       ⟨w / 16777216 % 256, Nat.mod_lt _ (by norm_num)⟩,
       ⟨w / 4294967296 % 256, Nat.mod_lt _ (by norm_num)⟩,
       ⟨w / 1099511627776 % 256, Nat.mod_lt _ (by norm_num)⟩,
       ⟨w / 281474976710656 % 256, Nat.mod_lt _ (by norm_num)⟩,
       ⟨w / 72057594037927936 % 256, Nat.mod_lt _ (by norm_num)⟩] := by
  rw [word_to_le_bytes, show List.range 8 = [0, 1, 2, 3, 4, 5, 6, 7] from rfl]
  simp only [List.map]
  norm_num

theorem le_word_word_to_le_bytes (w : Nat) (h : w < 2 ^ 64) :
    le_word (word_to_le_bytes w) = w := by
  rw [word_to_le_bytes_expand]
  show w % 256 + 256 * (w / 256 % 256 + 256 * (w / 65536 % 256 + 256 * (w / 16777216 % 256 +
    256 * (w / 4294967296 % 256 + 256 * (w / 1099511627776 % 256 +
    256 * (w / 281474976710656 % 256 + 256 * (w / 72057594037927936 % 256 + 256 * 0))))))) = w
  omega

theorem word_to_le_bytes_zero : word_to_le_bytes 0 = List.replicate 8 0 := by decide

theorem from_le_u64_four_bytes (w0 w1 w2 w3 : Nat) :
    (LHash.from_le_u64 [w0, w1, w2, w3]).bytes =
      word_to_le_bytes w0 ++ word_to_le_bytes w1 ++ word_to_le_bytes w2 ++
        word_to_le_bytes w3 := by
  show writeWords (List.replicate 32 0) [w0, w1, w2, w3] = _
  rw [writeWords, if_neg (by simp)]
  rw [show (List.replicate 32 (0 : Byte)).drop 8 = List.replicate 24 0 from by
    rw [List.drop_replicate]]
  rw [writeWords, if_neg (by simp)]
  rw [show (List.replicate 24 (0 : Byte)).drop 8 = List.replicate 16 0 from by
    rw [List.drop_replicate]]
  rw [writeWords, if_neg (by simp)]
  rw [show (List.replicate 16 (0 : Byte)).drop 8 = List.replicate 8 0 from by
    rw [List.drop_replicate]]
  rw [writeWords, if_neg (by simp)]
  rw [show (List.replicate 8 (0 : Byte)).drop 8 = [] from by
    rw [List.drop_replicate]; rfl]
  rw [writeWords]
  simp [List.append_assoc]

theorem String_mk_data (s : String) : String.mk s.data = s := by
  cases s
  rfl

theorem hexValD_hexDigit : ∀ n, n < 16 → hexValD (hexDigit n) = n := by decide

theorem isLowerHexDigit_hexDigit : ∀ n, n < 16 → isLowerHexDigit (hexDigit n) = true := by decide

theorem isHexDigit_hexDigit : ∀ n, n < 16 → isHexDigit (hexDigit n) = true := by decide

theorem hexDigit_toNat_lt : ∀ n, n < 16 → (hexDigit n).toNat < 128 := by decide

theorem lower_imp_hex (c : Char) (h : isLowerHexDigit c = true) : isHexDigit c = true := by
  simp [isHexDigit, h]

theorem hexDigit_hexValD (c : Char) (h : isLowerHexDigit c = true) :
    hexDigit (hexValD c) = c := by
  simp only [isLowerHexDigit, Bool.or_eq_true, beq_iff_eq] at h
  casesm* _ ∨ _ <;> subst_vars <;> decide

theorem hex_encode_length : ∀ bs : List Byte, (hex_encode_bytes bs).length = 2 * bs.length
  | [] => rfl
  | b :: bs => by
    simp only [hex_encode_bytes, List.length_cons, hex_encode_length bs]
    omega

theorem hex_encode_all_lower :
    ∀ bs : List Byte, ∀ c ∈ hex_encode_bytes bs, isLowerHexDigit c = true
  | [], c, hc => by simp [hex_encode_bytes] at hc
  | b :: bs, c, hc => by
    have hb := b.isLt
    simp only [hex_encode_bytes, List.mem_cons] at hc
    rcases hc with rfl | rfl | hc
    · exact isLowerHexDigit_hexDigit (b.val / 16) (by omega)
    · exact isLowerHexDigit_hexDigit (b.val % 16) (by omega)
    · exact hex_encode_all_lower bs c hc

theorem decode_encode : ∀ bs : List Byte, decodePairs (hex_encode_bytes bs) = bs
  | [] => rfl
  | b :: bs => by
    have hb : b.val < 256 := b.isLt
    have h1 : b.val / 16 < 16 := by omega
    have h2 : b.val % 16 < 16 := by omega
    show decodePair (hexDigit (b.val / 16)) (hexDigit (b.val % 16)) ::
      decodePairs (hex_encode_bytes bs) = b :: bs
    rw [decode_encode bs]
    congr 1
    apply Fin.ext
    show 16 * hexValD (hexDigit (b.val / 16)) + hexValD (hexDigit (b.val % 16)) = b.val
    rw [hexValD_hexDigit _ h1, hexValD_hexDigit _ h2]
    omega

theorem encode_decode : ∀ l : List Char, l.length % 2 = 0 →
    (∀ c ∈ l, isLowerHexDigit c = true) → hex_encode_bytes (decodePairs l) = l
  | [], _, _ => rfl
  | [_], h, _ => by simp at h
  | hi :: lo :: rest, h, hc => by
    have hhi : isLowerHexDigit hi = true := hc hi (by simp)
    have hlo : isLowerHexDigit lo = true := hc lo (by simp)
    have h1 := hexValD_lt hi
    have h2 := hexValD_lt lo
    have hrest : rest.length % 2 = 0 := by
      simp only [List.length_cons] at h
      omega
    show hexDigit ((16 * hexValD hi + hexValD lo) / 16) ::
      hexDigit ((16 * hexValD hi + hexValD lo) % 16) ::
      hex_encode_bytes (decodePairs rest) = hi :: lo :: rest
    rw [encode_decode rest hrest (fun c hc2 => hc c (by simp [hc2])),
      show (16 * hexValD hi + hexValD lo) / 16 = hexValD hi by omega,
      show (16 * hexValD hi + hexValD lo) % 16 = hexValD lo by omega,
      hexDigit_hexValD hi hhi, hexDigit_hexValD lo hlo]

theorem hex_encode_get : ∀ (bs : List Byte) (i : Nat) (b : Byte), bs.get? i = some b →
    (hex_encode_bytes bs).get? (2 * i) = some (hexDigit (b.val / 16)) ∧
    (hex_encode_bytes bs).get? (2 * i + 1) = some (hexDigit (b.val % 16))
  | [], i, b, h => by simp at h
  | b0 :: bs, 0, b, h => by
    simp only [List.get?_cons_zero, Option.some.injEq] at h
    subst h
    exact ⟨rfl, rfl⟩
  | b0 :: bs, i + 1, b, h => by
    have ih := hex_encode_get bs i b (by simpa using h)
    constructor
    · rw [show 2 * (i + 1) = 2 * i + 1 + 1 from by omega]
      simpa [hex_encode_bytes] using ih.1
    · rw [show 2 * (i + 1) + 1 = 2 * i + 1 + 1 + 1 from by omega]
      simpa [hex_encode_bytes] using ih.2

theorem take_append_of_length (a b : List Byte) (n : Nat) (h : a.length = n) :
    (a ++ b).take n = a := by
  subst h
  exact List.take_left a b

theorem drop_append_of_length (a b : List Byte) (n : Nat) (h : a.length = n) :
    (a ++ b).drop n = b := by
  subst h
  exact List.drop_left a b

/-- C1: Equality and hashing cohere: if two Hash values are byte-for-byte equal
then hashing feeds identical sequences of hash-state updates to the hasher for
both; and the update sequence produced for a value is a function of its
`as_bytes` view alone. -/
theorem hash_eq_coherence :
    (∀ x y : LHash, LHash.eq x y = true → x.hashUpdates = y.hashUpdates) ∧
    (∀ v w : LHash, v.as_bytes = w.as_bytes → v.hashUpdates = w.hashUpdates) := by
  constructor
  · intro x y h
    have h2 : decide (x.bytes = y.bytes) = true := h
    rw [LHash.ext_bytes (of_decide_eq_true h2)]
  · intro v w h
    rw [LHash.ext_bytes h]

/-- Witness for C1 at a concrete pair of equal values. -/
theorem hash_eq_coherence_witness :
    ZERO_HASH.hashUpdates = ZERO_HASH.hashUpdates ∧
    ZERO_HASH.hashUpdates = ZERO_HASH.hashUpdates :=
  ⟨hash_eq_coherence.1 ZERO_HASH ZERO_HASH (by decide),
   hash_eq_coherence.2 ZERO_HASH ZERO_HASH rfl⟩

/-- C2: Hashing a Hash value feeds exactly four updates to the hasher: the four
little-endian 64-bit words of the 32 bytes, in ascending word order (word 0
from bytes 0-7 first, word 3 from bytes 24-31 last), each below `2 ^ 64`, and
nothing else. -/
theorem hash_contract (v : LHash) :
    v.hashUpdates =
      [le_word (v.bytes.take 8), le_word ((v.bytes.drop 8).take 8),
       le_word ((v.bytes.drop 16).take 8), le_word ((v.bytes.drop 24).take 8)] ∧
    v.hashUpdates.length = 4 ∧
    ∀ w ∈ v.hashUpdates, w < 2 ^ 64 := by
  have hc := chunks8_len32 v.bytes v.len_eq
  have he : v.hashUpdates =
      [le_word (v.bytes.take 8), le_word ((v.bytes.drop 8).take 8),
       le_word ((v.bytes.drop 16).take 8), le_word ((v.bytes.drop 24).take 8)] := by
    rw [hashUpdates_eq_iter, LHash.iter_le_u64, hc]
    rfl
  refine ⟨he, by rw [he]; rfl, ?_⟩
  intro w hw
  rw [he] at hw
  simp only [List.mem_cons, List.not_mem_nil, or_false] at hw
  rcases hw with rfl | rfl | rfl | rfl <;>
    exact le_word_lt _ (by rw [List.length_take]; omega)

/-- Witness for C2 at a concrete value and update. -/
theorem hash_contract_witness : (0 : Nat) < 2 ^ 64 :=
  (hash_contract ZERO_HASH).2.2 0 (by decide)

/-- C7: `from_u64_word w` equals `from_le_u64 [0, 0, 0, w]`; its little-endian
word view is `[0, 0, 0, w]`; the word occupies bytes 24-31 in little-endian
byte order and bytes 0-23 are zero. -/
theorem from_u64_word_placement (w : Nat) (h : w < 2 ^ 64) :
    LHash.from_u64_word w = LHash.from_le_u64 [0, 0, 0, w] ∧
    (LHash.from_u64_word w).to_le_u64 = [0, 0, 0, w] ∧
    (LHash.from_u64_word w).bytes.take 24 = List.replicate 24 0 ∧
    (LHash.from_u64_word w).bytes.drop 24 = word_to_le_bytes w := by
  have hb := from_le_u64_four_bytes 0 0 0 w
  rw [word_to_le_bytes_zero] at hb
  have hb24 : (LHash.from_u64_word w).bytes = List.replicate 24 0 ++ word_to_le_bytes w := by
    show (LHash.from_le_u64 [0, 0, 0, w]).bytes = _
    rw [hb, show ((List.replicate 8 (0 : Byte) ++ List.replicate 8 0) ++ List.replicate 8 0)
      = List.replicate 24 0 from by decide]
  have hchunks : chunks8 (LHash.from_u64_word w).bytes =
      [List.replicate 8 0, List.replicate 8 0, List.replicate 8 0, word_to_le_bytes w] := by
    rw [hb24, show (List.replicate 24 (0 : Byte)) =
      List.replicate 8 0 ++ (List.replicate 8 0 ++ List.replicate 8 0) from by decide,
      List.append_assoc,
      chunks8_append8 _ _ (by decide),
      List.append_assoc,
      chunks8_append8 _ _ (by decide),
      chunks8_append8 _ _ (by decide)]
    conv_lhs => rw [← List.append_nil (word_to_le_bytes w)]
    rw [chunks8_append8 _ _ (word_to_le_bytes_length w)]
    rfl
  have hiter : (LHash.from_u64_word w).iter_le_u64 = [0, 0, 0, w] := by
    rw [LHash.iter_le_u64, hchunks]
    simp only [List.map]
    rw [le_word_word_to_le_bytes w h,
      show le_word (List.replicate 8 (0 : Byte)) = 0 from by decide]
  refine ⟨rfl, ?_, ?_, ?_⟩
  · rw [LHash.to_le_u64, hiter]
    rfl
  · rw [hb24, take_append_of_length _ _ _ (by simp)]
  · rw [hb24, drop_append_of_length _ _ _ (by simp)]

/-- Witness for C7 at the concrete word 5. -/
theorem from_u64_word_placement_witness :
    LHash.from_u64_word 5 = LHash.from_le_u64 [0, 0, 0, 5] ∧
    (LHash.from_u64_word 5).to_le_u64 = [0, 0, 0, 5] ∧
    (LHash.from_u64_word 5).bytes.take 24 = List.replicate 24 0 ∧
    (LHash.from_u64_word 5).bytes.drop 24 = word_to_le_bytes 5 :=
  from_u64_word_placement 5 (by norm_num)

/-- C8: on a 32-byte slice, `from_slice` and `try_from_slice` both succeed with
the same value and preserve the bytes; on any other length, `try_from_slice`
returns a recoverable error while `from_slice` panics (modelled by `none`). -/
theorem slice_constructors (s : List Byte) :
    (s.length = 32 → ∃ h, LHash.from_slice s = some h ∧
      LHash.try_from_slice s = .ok h ∧ h.bytes = s) ∧
    (s.length ≠ 32 → LHash.from_slice s = none ∧ LHash.try_from_slice s = .error ()) := by
  constructor
  · intro hl
    refine ⟨⟨s, hl⟩, ?_, ?_, rfl⟩
    · simp [LHash.from_slice, HASH_SIZE, hl]
    · simp [LHash.try_from_slice, HASH_SIZE, hl]
  · intro hl
    constructor
    · simp [LHash.from_slice, HASH_SIZE, hl]
    · simp [LHash.try_from_slice, HASH_SIZE, hl]

/-- Witness for C8 at a 32-byte slice and at the empty slice. -/
theorem slice_constructors_witness :
    (∃ h, LHash.from_slice (List.replicate 32 0) = some h ∧
      LHash.try_from_slice (List.replicate 32 0) = .ok h ∧
      h.bytes = List.replicate 32 0) ∧
    (LHash.from_slice [] = none ∧ LHash.try_from_slice [] = .error ()) :=
  ⟨(slice_constructors (List.replicate 32 0)).1 (by simp),
   (slice_constructors []).2 (by simp)⟩

/-- C10: every trait-based entry point equals the corresponding inherent
method: `From<[u8; 32]>` equals `from_bytes`, `TryFrom<&[u8]>` equals
`try_from_slice`, `From<u64>` equals `from_u64_word`, `FromHex::from_hex`
equals `FromStr::from_str`, and `ToHex::to_hex` equals the Display encoding. -/
theorem trait_impls_agree :
    (∀ (bs : List Byte) (h : bs.length = HASH_SIZE),
      LHash.from_array bs h = LHash.from_bytes bs h) ∧
    (∀ s : List Byte, LHash.try_from s = LHash.try_from_slice s) ∧
    (∀ w : Nat, LHash.from_u64 w = LHash.from_u64_word w) ∧
    (∀ s : String, LHash.from_hex s = LHash.from_str s) ∧
    (∀ x : LHash, x.to_hex = x.to_string) :=
  ⟨fun _ _ => rfl, fun _ => rfl, fun _ => rfl, fun _ => rfl, fun _ => rfl⟩

/-- Witness for C10 at concrete inputs. -/
theorem trait_impls_agree_witness :
    LHash.from_array (List.replicate 32 0) (by decide) =
      LHash.from_bytes (List.replicate 32 0) (by decide) ∧
    LHash.try_from [] = LHash.try_from_slice [] ∧
    LHash.from_u64 7 = LHash.from_u64_word 7 ∧
    LHash.from_hex "" = LHash.from_str "" ∧
    ZERO_HASH.to_hex = ZERO_HASH.to_string :=
  ⟨trait_impls_agree.1 (List.replicate 32 0) (by decide), trait_impls_agree.2.1 [],
   trait_impls_agree.2.2.1 7, trait_impls_agree.2.2.2.1 "",
   trait_impls_agree.2.2.2.2 ZERO_HASH⟩

theorem hex_decode32_ok (src : List Char) (h64 : src.length = 64)
    (hall : src.all isHexDigit = true) :
    hex_decode32 src = .ok ⟨decodePairs src, by simp [decodePairs_length, h64, HASH_SIZE]⟩ := by
  unfold hex_decode32
  rw [dif_pos h64, if_pos hall]

theorem hex_decode32_len_err (src : List Char) (h : src.length ≠ 64) :
    hex_decode32 src = .error (.InvalidLength 64) := by
  unfold hex_decode32
  rw [dif_neg h]

theorem from_str_ok (s : String) (h64 : s.data.length = 64)
    (hall : s.data.all isHexDigit = true) :
    LHash.from_str s =
      .ok ⟨decodePairs s.data, by simp [decodePairs_length, h64, HASH_SIZE]⟩ := by
  unfold LHash.from_str
  rw [hex_decode32_ok s.data h64 hall]
  rfl

theorem lower_ascii (c : Char) (h : isLowerHexDigit c = true) : c.toNat < 128 := by
  simp only [isLowerHexDigit, Bool.or_eq_true, beq_iff_eq] at h
  casesm* _ ∨ _ <;> subst_vars <;> decide

/-- C3: hex round-trip: decoding the encoding of any Hash value yields the
value back, and any 64-character lowercase hex string decodes successfully and
re-encodes to exactly itself. -/
theorem hex_round_trip :
    (∀ v : LHash, LHash.from_str v.to_string = .ok v) ∧
    (∀ s : String, s.data.length = 64 → (∀ c ∈ s.data, isLowerHexDigit c = true) →
      ∃ h, LHash.from_str s = .ok h ∧ h.to_string = s) := by
  constructor
  · intro v
    have h64 : (LHash.to_string v).data.length = 64 := by
      show (hex_encode_bytes v.bytes).length = 64
      rw [hex_encode_length, v.len_eq]
      rfl
    have hall : (LHash.to_string v).data.all isHexDigit = true := by
      show (hex_encode_bytes v.bytes).all isHexDigit = true
      rw [List.all_eq_true]
      intro c hc
      exact lower_imp_hex c (hex_encode_all_lower v.bytes c hc)
    rw [from_str_ok _ h64 hall]
    exact congrArg Except.ok (LHash.ext_bytes (decode_encode v.bytes))
  · intro s h64 hlower
    have hall : s.data.all isHexDigit = true := by
      rw [List.all_eq_true]
      intro c hc
      exact lower_imp_hex c (hlower c hc)
    refine ⟨⟨decodePairs s.data, by simp [decodePairs_length, h64, HASH_SIZE]⟩, ?_, ?_⟩
    · rw [from_str_ok s h64 hall]
    · show String.mk (hex_encode_bytes (decodePairs s.data)) = s
      rw [encode_decode s.data (by omega) hlower, String_mk_data]

/-- Witness for C3 at the all-zero value and the all-zero hex string. -/
theorem hex_round_trip_witness :
    LHash.from_str (LHash.to_string ZERO_HASH) = .ok ZERO_HASH ∧
    ∃ h, LHash.from_str
        "0000000000000000000000000000000000000000000000000000000000000000" = .ok h ∧
      h.to_string = "0000000000000000000000000000000000000000000000000000000000000000" :=
  ⟨hex_round_trip.1 ZERO_HASH,
   hex_round_trip.2 "0000000000000000000000000000000000000000000000000000000000000000"
     (by decide) (by decide)⟩

/-- C4: the text encoding of a Hash is exactly 64 lowercase hexadecimal
characters with no other characters anywhere: byte `i` produces characters
`2 * i` and `2 * i + 1`; encoding `ZERO_HASH` yields 64 zero characters and
decoding that string yields `ZERO_HASH`. -/
theorem hex_encoding_format :
    (∀ v : LHash, (LHash.to_string v).data.length = 64 ∧
      (LHash.to_string v).data.all isLowerHexDigit = true ∧
      (∀ i, i < 32 → ∃ b, v.bytes.get? i = some b ∧
        (LHash.to_string v).data.get? (2 * i) = some (hexDigit (b.val / 16)) ∧
        (LHash.to_string v).data.get? (2 * i + 1) = some (hexDigit (b.val % 16)))) ∧
    LHash.to_string ZERO_HASH = String.mk (List.replicate 64 '0') ∧
    LHash.from_str (String.mk (List.replicate 64 '0')) = .ok ZERO_HASH := by
  refine ⟨?_, by decide, by rfl⟩
  intro v
  refine ⟨?_, ?_, ?_⟩
  · show (hex_encode_bytes v.bytes).length = 64
    rw [hex_encode_length, v.len_eq]
    rfl
  · show (hex_encode_bytes v.bytes).all isLowerHexDigit = true
    rw [List.all_eq_true]
    exact hex_encode_all_lower v.bytes
  · intro i hi
    have hlt : i < v.bytes.length := by rw [v.len_eq]; exact hi
    refine ⟨v.bytes.get ⟨i, hlt⟩, List.get?_eq_get hlt, ?_, ?_⟩
    · exact (hex_encode_get v.bytes i _ (List.get?_eq_get hlt)).1
    · exact (hex_encode_get v.bytes i _ (List.get?_eq_get hlt)).2

/-- Witness for C4 at the all-zero value and index 0. -/
theorem hex_encoding_format_witness :
    ∃ b, ZERO_HASH.bytes.get? 0 = some b ∧
      (LHash.to_string ZERO_HASH).data.get? (2 * 0) = some (hexDigit (b.val / 16)) ∧
      (LHash.to_string ZERO_HASH).data.get? (2 * 0 + 1) = some (hexDigit (b.val % 16)) :=
  (hex_encoding_format.1 ZERO_HASH).2.2 0 (by decide)

/-- C5: decoding any string whose length differs from 64 fails with an
invalid-length error carrying the expected length 64, never the actual input
length. -/
theorem invalid_length_stability (s : String) (h : s.data.length ≠ 64) :
    LHash.from_str s = .error (.InvalidLength 64) := by
  unfold LHash.from_str
  rw [hex_decode32_len_err s.data h]
  rfl

/-- Witness for C5 at the empty string. -/
theorem invalid_length_stability_witness :
    ("" : String).data.length ≠ 64 ∧
    LHash.from_str "" = .error (.InvalidLength 64) :=
  ⟨by decide, invalid_length_stability "" (by decide)⟩

/-- C6 counterexample: the 63-character literal of the claim does not decode;
it fails with the invalid-length error carrying 64 (the repository test
`test_hash_basics` asserts exactly this for the same string, as `odd_str`). -/
theorem concrete_decode_claim_false :
    LHash.from_str "8e40af02265360d59f4ecf9ae9ebf8f00a3118408f5a9cdcbcc9c0f93642f3a" =
      .error (.InvalidLength 64) := by
  exact invalid_length_stability _ (by decide)

/-- C6 amended: the 64-character hex string of the repository test (the literal
of the claim completed with its final character, as in `test_hash_basics`)
decodes successfully and re-encodes to exactly itself. -/
theorem concrete_decode_amended :
    (LHash.from_str
        "8e40af02265360d59f4ecf9ae9ebf8f00a3118408f5a9cdcbcc9c0f93642f3af").map
      LHash.to_string =
    .ok "8e40af02265360d59f4ecf9ae9ebf8f00a3118408f5a9cdcbcc9c0f93642f3af" := by
  rfl

/-- C9: the text-encoding path cannot fail: the encoder emits exactly
`2 * HASH_SIZE` characters, so it exactly fills the 64-byte output buffer, and
every emitted character is an ASCII hexadecimal digit (code point below 128),
so the unchecked UTF-8 view always receives valid UTF-8. -/
theorem display_encoding_safe (v : LHash) :
    (hex_encode_bytes v.bytes).length = 2 * HASH_SIZE ∧
    (hex_encode_bytes v.bytes).all
      (fun c => isHexDigit c && decide (c.toNat < 128)) = true := by
  refine ⟨?_, ?_⟩
  · rw [hex_encode_length, v.len_eq]
  · rw [List.all_eq_true]
    intro c hc
    have hl := hex_encode_all_lower v.bytes c hc
    have h1 := lower_imp_hex c hl
    have h2 : c.toNat < 128 := lower_ascii c hl
    simp [h1, h2]

/-- Witness for C9 at the all-zero value. -/
theorem display_encoding_safe_witness :
    (hex_encode_bytes ZERO_HASH.bytes).length = 2 * HASH_SIZE ∧
    (hex_encode_bytes ZERO_HASH.bytes).all
      (fun c => isHexDigit c && decide (c.toNat < 128)) = true :=
  display_encoding_safe ZERO_HASH
